import Mathlib

/-!
Verification of the freehand-canvas drawing core: the SVG path codec
(`getSvgPathFromStroke`, `extractPointsFromPath`, `parseSVGContent`), the
stroke store (undo/redo, proximity erase) and the easing catalog, shallowly
embedded from the TypeScript sources.  JavaScript numbers are modelled as
exact rationals (`ℚ`); a JS number that may be `NaN` is modelled as
`Option ℚ` with `none` for `NaN`; DOM strings are Lean `String`s.
-/

namespace Freehand

/-- One token of an SVG path `d` attribute as assembled by the encoder:
either a command letter (`M`, `Q`, `Z`) or a numeric coordinate.  The
TypeScript encoder builds an array of such tokens and joins it with
spaces; number-to-string formatting is outside the model, so the codec is
verified at the token level, with the empty string corresponding to the
empty token list. -/
inductive Tok where
  | cmd (c : Char)
  | num (q : ℚ)
deriving DecidableEq

/-- The four numeric tokens the encoder pushes for one ring point `p` with
successor `nxt`: the control point `p` itself followed by the midpoint of
`p` and `nxt` (the body of the `reduce` callback in
`DrawingService.getSvgPathFromStroke`). -/
def quadSeg (p nxt : ℚ × ℚ) : List Tok :=
  [Tok.num p.1, Tok.num p.2,
   Tok.num ((p.1 + nxt.1) / 2), Tok.num ((p.2 + nxt.2) / 2)]

/-- Embedding of `DrawingService.getSvgPathFromStroke` (src/unnamed/part_001,
lines 119-131): empty input returns the empty string; otherwise a `reduce`
over the points with start value `['M', ...stroke[0], 'Q']` pushes, for the
point at index `i`, the point and its midpoint with `_arr[(i + 1) % _arr.length]`,
and finally `'Z'` is pushed.  The JS array index access is total here
because `(i + 1) % length < length`; the `getD` default is never used. -/
def getSvgPathFromStroke (stroke : List (ℚ × ℚ)) : List Tok :=
  match stroke with
  | [] => []
  | p0 :: _ =>
    (stroke.enum.foldl
        (fun acc ip =>
          acc ++ quadSeg ip.2 (stroke.getD ((ip.1 + 1) % stroke.length) (0, 0)))
        [Tok.cmd 'M', Tok.num p0.1, Tok.num p0.2, Tok.cmd 'Q'])
      ++ [Tok.cmd 'Z']

/-- The specification's wording of the encoder: a `moveto` to the first
point, then for every consecutive pair of ring points in cyclic order
(the ring closed by pairing each point with its successor, the last point
wrapping to the first via `rotate 1`) one quadratic segment whose control
point is the current point and whose endpoint is the midpoint to the next,
terminated by a close-path. -/
def encodeRingSpec (stroke : List (ℚ × ℚ)) : List Tok :=
  match stroke with
  | [] => []
  | p0 :: _ =>
    [Tok.cmd 'M', Tok.num p0.1, Tok.num p0.2, Tok.cmd 'Q'] ++
      (stroke.zip (stroke.rotate 1)).flatMap (fun pq => quadSeg pq.1 pq.2) ++
      [Tok.cmd 'Z']

theorem foldl_append_flatMap {β γ : Type _} (l : List β) (f : β → List γ) :
    ∀ init : List γ,
      l.foldl (fun acc b => acc ++ f b) init = init ++ l.flatMap f := by
  induction l with
  | nil => intro init; simp
  | cons x xs ih => intro init; simp [ih, List.append_assoc]

theorem zip_eq_range_map {α : Type _} (d : α) :
    ∀ a b : List α, b.length = a.length →
      a.zip b = (List.range a.length).map (fun i => (a.getD i d, b.getD i d)) := by
  intro a
  induction a with
  | nil => intro b _; simp
  | cons x xs ih =>
    intro b hb
    match b with
    | [] => simp at hb
    | y :: ys =>
      have hys : ys.length = xs.length := by simpa using hb
      simp only [List.zip_cons_cons, List.length_cons, List.range_succ_eq_map,
        List.map_cons, List.map_map]
      refine congrArg₂ (· :: ·) rfl ?_
      rw [ih ys hys]
      simp [Function.comp]

theorem enumFrom_eq_range_map {α : Type _} (d : α) :
    ∀ (a : List α) (k : Nat),
      a.enumFrom k = (List.range a.length).map (fun i => (k + i, a.getD i d)) := by
  intro a
  induction a with
  | nil => intro k; simp
  | cons x xs ih =>
    intro k
    simp only [List.enumFrom_cons, List.length_cons, List.range_succ_eq_map,
      List.map_cons, List.map_map]
    refine congrArg₂ (· :: ·) (by simp) ?_
    rw [ih (k + 1)]
    refine List.map_congr_left ?_
    intro i _
    simp [Function.comp]
    omega

theorem enum_eq_range_map {α : Type _} (d : α) (a : List α) :
    a.enum = (List.range a.length).map (fun i => (i, a.getD i d)) := by
  have h := enumFrom_eq_range_map d a 0
  simpa [List.enum_eq_enumFrom] using h

theorem flatMap_congr_mem {α β : Type _} {l : List α} {f g : α → List β}
    (h : ∀ a ∈ l, f a = g a) : l.flatMap f = l.flatMap g := by
  induction l with
  | nil => rfl
  | cons x xs ih =>
    simp only [List.flatMap_cons]
    rw [h x (by simp), ih (fun a ha => h a (by simp [ha]))]

theorem rotate_one_getD {α : Type _} (l : List α) (d : α) (i : Nat)
    (h : i < l.length) :
    (l.rotate 1).getD i d = l.getD ((i + 1) % l.length) d := by
  have h' : i < (l.rotate 1).length := by simpa [List.length_rotate] using h
  have hlen : 0 < l.length := Nat.zero_lt_of_lt h
  rw [List.getD_eq_getElem _ _ h',
      List.getD_eq_getElem _ _ (Nat.mod_lt _ hlen), List.getElem_rotate]

/-- C1: for every input list of outline points, `getSvgPathFromStroke`
returns the empty string (empty token list) on the empty list and otherwise
a path starting with a moveto to the first point followed, for every ring
point in cyclic order with the last point wrapping back to the first, by a
quadratic segment whose control point is the current point and whose
endpoint is the midpoint to the next point, terminated by a close-path;
in particular a single point yields a valid `M x y Q x y x y Z` path. -/
theorem getSvgPathFromStroke_spec :
    (∀ stroke : List (ℚ × ℚ), getSvgPathFromStroke stroke = encodeRingSpec stroke) ∧
    getSvgPathFromStroke [] = [] ∧
    (∀ x y : ℚ, getSvgPathFromStroke [(x, y)] =
      [Tok.cmd 'M', Tok.num x, Tok.num y, Tok.cmd 'Q',
       Tok.num x, Tok.num y, Tok.num x, Tok.num y, Tok.cmd 'Z']) := by
  have main : ∀ stroke : List (ℚ × ℚ),
      getSvgPathFromStroke stroke = encodeRingSpec stroke := by
    intro stroke
    match stroke with
    | [] => rfl
    | p0 :: rest =>
      show (((p0 :: rest).enum.foldl _ _) ++ [Tok.cmd 'Z']) = _
      rw [foldl_append_flatMap]
      show _ = [Tok.cmd 'M', Tok.num p0.1, Tok.num p0.2, Tok.cmd 'Q'] ++ _ ++ [Tok.cmd 'Z']
      rw [List.append_assoc]
      refine congrArg _ (congrArg₂ (· ++ ·) ?_ rfl)
      set l : List (ℚ × ℚ) := p0 :: rest with hl
      have hrot : (l.rotate 1).length = l.length := List.length_rotate l 1
      rw [enum_eq_range_map (0, 0) l, zip_eq_range_map (0, 0) l (l.rotate 1) hrot,
        List.flatMap_map, List.flatMap_map]
      refine flatMap_congr_mem ?_
      intro i hi
      have hi' : i < l.length := List.mem_range.mp hi
      simp only [Function.comp]
      rw [rotate_one_getD l (0, 0) i hi']
  refine ⟨main, rfl, ?_⟩
  intro x y
  rw [main]
  have hx : (x + x) / 2 = x := by ring
  have hy : (y + y) / 2 = y := by ring
  simp [encodeRingSpec, quadSeg, List.rotate, hx, hy]

/-- One pointer sample `[x, y, pressure]` as stored in `points` arrays. -/
structure Sample where
  x : ℚ
  y : ℚ
  pressure : ℚ
deriving DecidableEq

/-- Attempt to match the body `[0-9]*\.?[0-9]+` of the numeric-token regex
`/[-+]?[0-9]*\.?[0-9]+/` at the start of `cs`, greedily with backtracking as
the JS engine does: a maximal digit run, then a fractional part only when a
digit follows the dot (otherwise the dot is given back), failing when no
digit can be consumed at all.  Returns the matched token and the remaining
characters. -/
def matchBody (cs : List Char) : Option (List Char × List Char) :=
  let s1 := cs.span Char.isDigit
  match s1.2 with
  | c :: r2 =>
    if c = '.' then
      let s2 := r2.span Char.isDigit
      if s2.1 = [] then
        if s1.1 = [] then none else some (s1.1, s1.2)
      else
        some (s1.1 ++ '.' :: s2.1, s2.2)
    else
      if s1.1 = [] then none else some (s1.1, s1.2)
  | [] => if s1.1 = [] then none else some (s1.1, s1.2)

/-- Attempt to match the full numeric-token regex `/[-+]?[0-9]*\.?[0-9]+/`
at the start of `cs`: an optional sign followed by the body; a sign whose
body fails matches nothing (the sign character alone is not a token). -/
def matchNumAt (cs : List Char) : Option (List Char × List Char) :=
  match cs with
  | [] => none
  | c :: rest =>
    if c = '-' ∨ c = '+' then
      match matchBody rest with
      | some (t, r) => some (c :: t, r)
      | none => none
    else matchBody (c :: rest)

/-- Global scan of `d.match(/[-+]?[0-9]*\.?[0-9]+/g)`: at each position try
the token regex; on success emit the token and resume after it, otherwise
advance one character.  Every match consumes at least one character, so the
character count is sufficient fuel. -/
def scanAux : Nat → List Char → List (List Char)
  | 0, _ => []
  | _ + 1, [] => []
  | fuel + 1, c :: rest =>
    match matchNumAt (c :: rest) with
    | some (t, r) => t :: scanAux fuel r
    | none => scanAux fuel rest

/-- All numeric tokens of `d` in left-to-right textual order. -/
def scanNums (cs : List Char) : List (List Char) :=
  scanAux cs.length cs

/-- Decimal value of a digit run. -/
def digitsToNat (ds : List Char) : Nat :=
  ds.foldl (fun n c => 10 * n + (c.toNat - Char.toNat '0')) 0

/-- JS `parseFloat` on the sign-stripped part of a token: integer digits,
optionally a dot and fraction digits; `none` models `NaN` (no digit at
all). -/
def parsePos (t : List Char) : Option ℚ :=
  let s1 := t.span Char.isDigit
  match s1.2 with
  | '.' :: r2 =>
    let s2 := r2.span Char.isDigit
    if s1.1 = [] ∧ s2.1 = [] then none
    else some ((digitsToNat s1.1 : ℚ) + (digitsToNat s2.1 : ℚ) / (10 : ℚ) ^ s2.1.length)
  | _ => if s1.1 = [] then none else some (digitsToNat s1.1 : ℚ)

/-- JS `parseFloat` of a token: optional sign then the unsigned part;
`none` models `NaN`. -/
def parseFloatQ (t : List Char) : Option ℚ :=
  match t with
  | [] => none
  | c :: rest =>
    if c = '-' then (parsePos rest).map (fun q => -q)
    else if c = '+' then parsePos rest
    else parsePos (c :: rest)

/-- Total numeric value of a token (used by the specification side, where
every scanned token is known to parse). -/
def parseVal (t : List Char) : ℚ :=
  (parseFloatQ t).getD 0

/-- Embedding of the indexed loop of `DrawingService.extractPointsFromPath`
(src/unnamed/part_001, lines 144-160): `for (i = 0; i < numbers.length - 1;
i += 2)` parses `numbers[i]`, `numbers[i+1]` and pushes `[x, y, 0.5]` when
neither is `NaN`; a trailing unpaired token is never visited. -/
def extractLoop : List (List Char) → List Sample
  | n1 :: n2 :: rest =>
    (match parseFloatQ n1, parseFloatQ n2 with
     | some x, some y => (⟨x, y, 1 / 2⟩ : Sample) :: extractLoop rest
     | _, _ => extractLoop rest)
  | _ => []

/-- Embedding of `DrawingService.extractPointsFromPath`: scan `d` for the
numeric tokens of the global regex, then run the pairing loop (a `null`
match result and an empty token list both contribute nothing). -/
def extractPointsFromPath (d : String) : List Sample :=
  extractLoop (scanNums d.data)

/-- The specification's wording of decode: pair up consecutive numeric
tokens as (x, y), give every point pressure 0.5, drop an odd trailing
token. -/
def pairUp : List ℚ → List Sample
  | x :: y :: rest => (⟨x, y, 1 / 2⟩ : Sample) :: pairUp rest
  | _ => []

/-- The specification's decode function. -/
def decodeSpec (d : String) : List Sample :=
  pairUp ((scanNums d.data).map parseVal)

theorem takeWhile_eq_self_of_all {α : Type _} {p : α → Bool} :
    ∀ {l : List α}, (∀ a ∈ l, p a = true) → l.takeWhile p = l := by
  intro l
  induction l with
  | nil => intro _; rfl
  | cons x xs ih =>
    intro h
    rw [List.takeWhile_cons, h x (by simp)]
    simpa using ih (fun a ha => h a (by simp [ha]))

theorem dropWhile_eq_nil_of_all {α : Type _} {p : α → Bool} :
    ∀ {l : List α}, (∀ a ∈ l, p a = true) → l.dropWhile p = [] := by
  intro l
  induction l with
  | nil => intro _; rfl
  | cons x xs ih =>
    intro h
    rw [List.dropWhile_cons, h x (by simp)]
    simpa using ih (fun a ha => h a (by simp [ha]))

theorem takeWhile_append_stop {α : Type _} {p : α → Bool} {l1 l2 : List α} {x : α}
    (h1 : ∀ a ∈ l1, p a = true) (hx : p x = false) :
    (l1 ++ x :: l2).takeWhile p = l1 := by
  induction l1 with
  | nil => simp [List.takeWhile_cons, hx]
  | cons y ys ih =>
    rw [List.cons_append, List.takeWhile_cons, h1 y (by simp)]
    simpa using ih (fun a ha => h1 a (by simp [ha]))

theorem dropWhile_append_stop {α : Type _} {p : α → Bool} {l1 l2 : List α} {x : α}
    (h1 : ∀ a ∈ l1, p a = true) (hx : p x = false) :
    (l1 ++ x :: l2).dropWhile p = x :: l2 := by
  induction l1 with
  | nil => simp [List.dropWhile_cons, hx]
  | cons y ys ih =>
    rw [List.cons_append, List.dropWhile_cons, h1 y (by simp)]
    simpa using ih (fun a ha => h1 a (by simp [ha]))

theorem dot_not_digit : Char.isDigit '.' = false := by decide

theorem parsePos_digits {d1 : List Char} (h1 : ∀ c ∈ d1, c.isDigit = true)
    (hne : d1 ≠ []) : (parsePos d1).isSome = true := by
  unfold parsePos
  simp only [List.span_eq_take_drop, takeWhile_eq_self_of_all h1,
    dropWhile_eq_nil_of_all h1]
  simp [hne]

theorem parsePos_digits_dot {d1 d2 : List Char} (h1 : ∀ c ∈ d1, c.isDigit = true)
    (h2 : ∀ c ∈ d2, c.isDigit = true) (hne : d2 ≠ []) :
    (parsePos (d1 ++ '.' :: d2)).isSome = true := by
  unfold parsePos
  simp only [List.span_eq_take_drop, takeWhile_append_stop h1 dot_not_digit,
    dropWhile_append_stop h1 dot_not_digit, takeWhile_eq_self_of_all h2]
  simp [hne]

theorem exists_head_of_ne_nil {α : Type _} {l : List α} (h : l ≠ []) :
    ∃ hd tl, l = hd :: tl := by
  cases l with
  | nil => exact absurd rfl h
  | cons x xs => exact ⟨x, xs, rfl⟩

theorem digits_token_shape {d1 : List Char} (h1 : ∀ c ∈ d1, c.isDigit = true)
    (hne : d1 ≠ []) :
    (parsePos d1).isSome = true ∧
      ∃ hd tl, d1 = hd :: tl ∧ (hd.isDigit = true ∨ hd = '.') := by
  refine ⟨parsePos_digits h1 hne, ?_⟩
  obtain ⟨hd, tl, heq⟩ := exists_head_of_ne_nil hne
  exact ⟨hd, tl, heq, Or.inl (h1 hd (by rw [heq]; simp))⟩

theorem digits_dot_token_shape {d1 d2 : List Char}
    (h1 : ∀ c ∈ d1, c.isDigit = true) (h2 : ∀ c ∈ d2, c.isDigit = true)
    (hne2 : d2 ≠ []) :
    (parsePos (d1 ++ '.' :: d2)).isSome = true ∧
      ∃ hd tl, d1 ++ '.' :: d2 = hd :: tl ∧ (hd.isDigit = true ∨ hd = '.') := by
  refine ⟨parsePos_digits_dot h1 h2 hne2, ?_⟩
  cases d1 with
  | nil => exact ⟨'.', d2, rfl, Or.inr rfl⟩
  | cons x xs => exact ⟨x, xs ++ '.' :: d2, rfl, Or.inl (h1 x (by simp))⟩

theorem matchBody_sound {cs t r : List Char} (h : matchBody cs = some (t, r)) :
    (parsePos t).isSome = true ∧
      ∃ hd tl, t = hd :: tl ∧ (hd.isDigit = true ∨ hd = '.') := by
  have h1 : ∀ c ∈ cs.takeWhile Char.isDigit, c.isDigit = true :=
    fun c hc => List.mem_takeWhile_imp hc
  unfold matchBody at h
  simp only [List.span_eq_take_drop] at h
  split at h
  · rename_i c r2 heq
    have h2 : ∀ a ∈ r2.takeWhile Char.isDigit, a.isDigit = true :=
      fun a ha => List.mem_takeWhile_imp ha
    split at h
    · rename_i hc
      subst hc
      split at h
      · rename_i h2e
        split at h
        · exact absurd h (by simp)
        · rename_i h1e
          obtain ⟨rfl, -⟩ :
              cs.takeWhile Char.isDigit = t ∧ cs.dropWhile Char.isDigit = r := by
            simpa using h
          exact digits_token_shape h1 h1e
      · rename_i h2e
        obtain ⟨rfl, -⟩ :
            cs.takeWhile Char.isDigit ++ '.' :: r2.takeWhile Char.isDigit = t ∧
              r2.dropWhile Char.isDigit = r := by
          simpa using h
        exact digits_dot_token_shape h1 h2 h2e
    · rename_i hc
      split at h
      · exact absurd h (by simp)
      · rename_i h1e
        obtain ⟨rfl, -⟩ :
            cs.takeWhile Char.isDigit = t ∧ cs.dropWhile Char.isDigit = r := by
          simpa using h
        exact digits_token_shape h1 h1e
  · rename_i heq
    split at h
    · exact absurd h (by simp)
    · rename_i h1e
      obtain ⟨rfl, -⟩ :
          cs.takeWhile Char.isDigit = t ∧ cs.dropWhile Char.isDigit = r := by
        simpa using h
      exact digits_token_shape h1 h1e

theorem digit_ne_minus {c : Char} (h : c.isDigit = true) : c ≠ '-' := by
  intro e; subst e; exact absurd h (by decide)

theorem digit_ne_plus {c : Char} (h : c.isDigit = true) : c ≠ '+' := by
  intro e; subst e; exact absurd h (by decide)

theorem matchNumAt_sound {cs t r : List Char} (h : matchNumAt cs = some (t, r)) :
    (parseFloatQ t).isSome = true := by
  unfold matchNumAt at h
  split at h
  · exact absurd h (by simp)
  · rename_i c rest
    split at h
    · rename_i hsign
      cases hb : matchBody rest with
      | none => rw [hb] at h; exact absurd h (by simp)
      | some tr =>
        obtain ⟨t', r'⟩ := tr
        rw [hb] at h
        obtain ⟨rfl, rfl⟩ : c :: t' = t ∧ r' = r := by simpa using h
        have hs := (matchBody_sound hb).1
        rcases hsign with rfl | rfl
        · simpa [parseFloatQ] using hs
        · simpa [parseFloatQ] using hs
    · rename_i hsign
      obtain ⟨hs, hd, tl, rfl, hhd⟩ := matchBody_sound h
      have hm : hd ≠ '-' ∧ hd ≠ '+' := by
        rcases hhd with hdig | rfl
        · exact ⟨digit_ne_minus hdig, digit_ne_plus hdig⟩
        · exact ⟨by decide, by decide⟩
      simpa [parseFloatQ, hm.1, hm.2] using hs

theorem scanAux_sound :
    ∀ (fuel : Nat) (cs t : List Char), t ∈ scanAux fuel cs →
      (parseFloatQ t).isSome = true := by
  intro fuel
  induction fuel with
  | zero => intro cs t h; exact absurd h (by simp [scanAux])
  | succ fuel ih =>
    intro cs t h
    match cs with
    | [] => exact absurd h (by simp [scanAux])
    | c :: rest =>
      rw [scanAux] at h
      revert h
      cases hm : matchNumAt (c :: rest) with
      | none => intro h; exact ih rest t h
      | some tr =>
        obtain ⟨tok, r⟩ := tr
        intro h
        rcases List.mem_cons.mp h with rfl | h
        · exact matchNumAt_sound hm
        · exact ih r t h

theorem extractLoop_eq_pairUp :
    ∀ toks : List (List Char), (∀ t ∈ toks, (parseFloatQ t).isSome = true) →
      extractLoop toks = pairUp (toks.map parseVal)
  | [], _ => rfl
  | [t], _ => rfl
  | t1 :: t2 :: rest, h => by
    obtain ⟨x, hx⟩ := Option.isSome_iff_exists.mp (h t1 (by simp))
    obtain ⟨y, hy⟩ := Option.isSome_iff_exists.mp (h t2 (by simp))
    rw [extractLoop, hx, hy]
    simp only [List.map_cons]
    rw [pairUp, parseVal, parseVal, hx, hy]
    simp only [Option.getD_some]
    exact congrArg _ (extractLoop_eq_pairUp rest (fun t ht => h t (by simp [ht])))

/-- The concrete path-data string of the specification's decode example. -/
def c4path : String := "M1 2 Q3 4 5 6 Z"

/-- C4: `extractPointsFromPath` returns exactly the points obtained by
scanning `d` for numeric tokens in textual order, pairing consecutive
tokens as (x, y) with default pressure 0.5 and dropping an odd trailing
token; in particular the example path decodes to
[(1,2,0.5),(3,4,0.5),(5,6,0.5)]. -/
theorem extractPointsFromPath_spec :
    (∀ d : String, extractPointsFromPath d = decodeSpec d) ∧
    extractPointsFromPath c4path =
      [⟨1, 2, 1 / 2⟩, ⟨3, 4, 1 / 2⟩, ⟨5, 6, 1 / 2⟩] := by
  constructor
  · intro d
    exact extractLoop_eq_pairUp (scanNums d.data)
      (fun t ht => scanAux_sound d.data.length d.data t ht)
  · rfl

/-- Name of the identity easing, the default of every tool slot. -/
def linearName : String := "linear"

noncomputable def linear : ℝ → ℝ := fun t => t

noncomputable def easeInQuad : ℝ → ℝ := fun t => t * t

noncomputable def easeOutQuad : ℝ → ℝ := fun t => t * (2 - t)

noncomputable def easeInOutQuad : ℝ → ℝ := fun t =>
  if t < 1 / 2 then 2 * t * t else -1 + (4 - 2 * t) * t

noncomputable def easeInCubic : ℝ → ℝ := fun t => t * t * t

noncomputable def easeOutCubic : ℝ → ℝ := fun t => 1 - (1 - t) ^ 3

noncomputable def easeInOutCubic : ℝ → ℝ := fun t =>
  if t < 1 / 2 then 4 * t * t * t else 1 - (-2 * t + 2) ^ 3 / 2

noncomputable def easeInQuart : ℝ → ℝ := fun t => t * t * t * t

noncomputable def easeOutQuart : ℝ → ℝ := fun t => 1 - (1 - t) ^ 4

noncomputable def easeInOutQuart : ℝ → ℝ := fun t =>
  if t < 1 / 2 then 8 * t * t * t * t else 1 - (-2 * t + 2) ^ 4 / 2

noncomputable def easeInQuint : ℝ → ℝ := fun t => t * t * t * t * t

noncomputable def easeOutQuint : ℝ → ℝ := fun t => 1 - (1 - t) ^ 5

noncomputable def easeInOutQuint : ℝ → ℝ := fun t =>
  if t < 1 / 2 then 16 * t * t * t * t * t else 1 - (-2 * t + 2) ^ 5 / 2

noncomputable def easeInSine : ℝ → ℝ := fun t => 1 - Real.cos (t * Real.pi / 2)

noncomputable def easeOutSine : ℝ → ℝ := fun t => Real.sin (t * Real.pi / 2)

noncomputable def easeInOutSine : ℝ → ℝ := fun t => -(Real.cos (Real.pi * t) - 1) / 2

noncomputable def easeInExpo : ℝ → ℝ := fun t =>
  if t = 0 then 0 else (2 : ℝ) ^ (10 * t - 10)

noncomputable def easeOutExpo : ℝ → ℝ := fun t =>
  if t = 1 then 1 else 1 - (2 : ℝ) ^ (-10 * t)

noncomputable def easeInOutExpo : ℝ → ℝ := fun t =>
  if t = 0 then 0
  else if t = 1 then 1
  else if t < 1 / 2 then (2 : ℝ) ^ (20 * t - 10) / 2
  else (2 - (2 : ℝ) ^ (-20 * t + 10)) / 2

/-- Embedding of the `EASINGS` record (src/unnamed/part_000, lines 13-43):
an association list from easing names to shaping functions, in source
order.  JS `Math.pow` on real arguments is `Real.rpow`; the exponential
variants special-case the domain endpoints exactly as the source does. -/
noncomputable def EASINGS : List (String × (ℝ → ℝ)) :=
  [(linearName, linear),
   ("easeInQuad", easeInQuad), ("easeOutQuad", easeOutQuad), ("easeInOutQuad", easeInOutQuad),
   ("easeInCubic", easeInCubic), ("easeOutCubic", easeOutCubic), ("easeInOutCubic", easeInOutCubic),
   ("easeInQuart", easeInQuart), ("easeOutQuart", easeOutQuart), ("easeInOutQuart", easeInOutQuart),
   ("easeInQuint", easeInQuint), ("easeOutQuint", easeOutQuint), ("easeInOutQuint", easeInOutQuint),
   ("easeInSine", easeInSine), ("easeOutSine", easeOutSine), ("easeInOutSine", easeInOutSine),
   ("easeInExpo", easeInExpo), ("easeOutExpo", easeOutExpo), ("easeInOutExpo", easeInOutExpo)]

/-- JS record lookup `EASINGS[name]`: `undefined` (here `none`) when the
name is not a key. -/
noncomputable def lookupEasing (name : String) : Option (ℝ → ℝ) :=
  (EASINGS.find? (fun e => e.1 == name)).map (fun e => e.2)

/-- Start/end taper sub-configuration of a tool (`{taper, easing}`). -/
structure TaperConfig where
  taper : ℚ
  easing : String
deriving DecidableEq

/-- Outline sub-configuration of a tool (`{color, width}`). -/
structure OutlineConfig where
  color : String
  width : ℚ
deriving DecidableEq

/-- Embedding of the `ToolConfig` model interface.  The source fields
`start` and `end` are named `startTaper` and `endTaper` here because `end`
is a Lean keyword. -/
structure ToolConfig where
  color : String
  size : ℚ
  opacity : ℚ
  thinning : ℚ
  streamline : ℚ
  smoothing : ℚ
  easing : String
  startTaper : TaperConfig
  endTaper : TaperConfig
  outline : OutlineConfig
deriving DecidableEq

/-- Taper part of the perfect-freehand options object built by
`getLibOptions` (`{taper, easing, cap: true}`); the easing is the result
of the record lookup and is `undefined` (`none`) for unknown names. -/
structure TaperOptions where
  taper : ℚ
  easing : Option (ℝ → ℝ)
  cap : Bool

/-- The options object handed to the external `getStroke`; the source
fields `start`/`end` are `startTaper`/`endTaper` here. -/
structure LibOptions where
  size : ℚ
  thinning : ℚ
  streamline : ℚ
  smoothing : ℚ
  easing : Option (ℝ → ℝ)
  startTaper : TaperOptions
  endTaper : TaperOptions

/-- Embedding of `DrawingService.getLibOptions` (src/unnamed/part_001,
lines 96-114): a total function that copies the shaping fields and
resolves the three easing names through the `EASINGS` record lookup; an
unknown name resolves to `undefined` (`none`) and no error is raised. -/
noncomputable def getLibOptions (tool : ToolConfig) : LibOptions :=
  { size := tool.size
    thinning := tool.thinning
    streamline := tool.streamline
    smoothing := tool.smoothing
    easing := lookupEasing tool.easing
    startTaper :=
      { taper := tool.startTaper.taper
        easing := lookupEasing tool.startTaper.easing
        cap := true }
    endTaper :=
      { taper := tool.endTaper.taper
        easing := lookupEasing tool.endTaper.easing
        cap := true } }

/-- Default outline color of `getDefaultTool`. -/
def outlineDefaultColor : String := "#9747ff"

/-- Embedding of `getDefaultTool(color, size, opacity = 1)`; the JS default
parameter value 1 is passed explicitly by callers here. -/
def getDefaultTool (color : String) (size opacity : ℚ) : ToolConfig :=
  { color := color
    size := size
    opacity := opacity
    thinning := 1 / 2
    streamline := 1 / 2
    smoothing := 23 / 100
    easing := linearName
    startTaper := { taper := 0, easing := linearName }
    endTaper := { taper := 0, easing := linearName }
    outline := { color := outlineDefaultColor, width := 0 } }

/-- C6 counterexample: the easing catalog does not have 21 entries. -/
theorem easings_length_ne_21 : EASINGS.length ≠ 21 := by decide

/-- C6 (amended): the easing catalog contains 19 entries, the `linear`
identity plus the quad, cubic, quart, quint, sine and expo families each
in In, Out and InOut variants. -/
theorem easings_catalog :
    EASINGS.length = 19 ∧
    EASINGS.map Prod.fst =
      [linearName,
       "easeInQuad", "easeOutQuad", "easeInOutQuad",
       "easeInCubic", "easeOutCubic", "easeInOutCubic",
       "easeInQuart", "easeOutQuart", "easeInOutQuart",
       "easeInQuint", "easeOutQuint", "easeInOutQuint",
       "easeInSine", "easeOutSine", "easeInOutSine",
       "easeInExpo", "easeOutExpo", "easeInOutExpo"] ∧
    lookupEasing linearName = some linear ∧ (∀ t : ℝ, linear t = t) :=
  ⟨rfl, rfl, rfl, fun _ => rfl⟩

/-- A tool easing name not present in the catalog. -/
def bogusName : String := "easeBounce"

/-- A tool configuration whose easing name does not resolve. -/
def bogusTool : ToolConfig :=
  { getDefaultTool outlineDefaultColor 16 1 with easing := bogusName }

/-- C7 counterexample: a tool whose easing name does not resolve in the
catalog is not rejected; `getLibOptions` returns normally with the easing
field silently `undefined` (`none`) — no error is surfaced anywhere. -/
theorem unknown_easing_counterexample :
    lookupEasing bogusTool.easing = none ∧
    (getLibOptions bogusTool).easing = none ∧
    (getLibOptions bogusTool).size = 16 :=
  ⟨rfl, rfl, rfl⟩

/-- C7 (amended): an easing name that does not resolve in the catalog is
not surfaced as an error: `getLibOptions` returns normally, with the
unresolved easing passed through as `undefined` (`none`) and all other
option fields intact. -/
theorem unknown_easing_is_silent :
    ∀ tool : ToolConfig, lookupEasing tool.easing = none →
      (getLibOptions tool).easing = none ∧
      (getLibOptions tool).size = tool.size ∧
      (getLibOptions tool).thinning = tool.thinning := by
  intro tool h
  exact ⟨by simp [getLibOptions, h], rfl, rfl⟩

/-- C7 witness: the silent-pass-through theorem applied to the concrete
unresolvable tool configuration. -/
theorem unknown_easing_is_silent_witness :
    lookupEasing bogusTool.easing = none ∧ (getLibOptions bogusTool).easing = none :=
  ⟨rfl, (unknown_easing_is_silent bogusTool rfl).1⟩

/-- C9: the identity easing fixes 0 and 1, and every exponential easing
returns exactly 0 at t = 0 and exactly 1 at t = 1 thanks to the endpoint
special cases (no indeterminate `2 ^ -∞`-style evaluation). -/
theorem expo_easings_endpoints :
    linear 0 = 0 ∧ linear 1 = 1 ∧
    easeInExpo 0 = 0 ∧ easeInExpo 1 = 1 ∧
    easeOutExpo 0 = 0 ∧ easeOutExpo 1 = 1 ∧
    easeInOutExpo 0 = 0 ∧ easeInOutExpo 1 = 1 := by
  refine ⟨rfl, rfl, ?_, ?_, ?_, ?_, ?_, ?_⟩
  · simp [easeInExpo]
  · simp only [easeInExpo]
    rw [if_neg one_ne_zero]
    have h : (10 : ℝ) * 1 - 10 = 0 := by ring
    rw [h, Real.rpow_zero]
  · simp only [easeOutExpo]
    rw [if_neg (by norm_num : (0 : ℝ) ≠ 1)]
    have h : (-10 : ℝ) * 0 = 0 := by ring
    rw [h, Real.rpow_zero]
    ring
  · simp [easeOutExpo]
  · simp [easeInOutExpo]
  · simp only [easeInOutExpo]
    rw [if_neg one_ne_zero]
    simp

/-- A committed stroke record (`DrawingStroke` in `models`).  Numeric
fields obtained by parsing attributes can be `NaN` in JS and are therefore
`Option ℚ` (`none` = `NaN`); pen commits always store `some`. -/
structure DrawingStroke where
  points : List Sample
  path : String
  color : String
  opacity : Option ℚ
  outlineColor : String
  outlineWidth : Option ℚ
deriving DecidableEq

/-- The four tool slots of `activeTool`. -/
inductive Tool where
  | pen1
  | pen2
  | highlighter
  | eraser
deriving DecidableEq

/-- Eraser configuration (`{size}`). -/
structure EraserConfig where
  size : ℚ
deriving DecidableEq

/-- The `tools` record of the component. -/
structure Tools where
  pen1 : ToolConfig
  pen2 : ToolConfig
  highlighter : ToolConfig
  eraser : EraserConfig
deriving DecidableEq

/-- JS dynamic lookup `this.tools[this.activeTool]` as used on the drawing
paths, which are all guarded by `activeTool !== 'eraser'`; the eraser case
is never reached there and is mapped to `pen1` only to keep the function
total. -/
def penConfig (ts : Tools) : Tool → ToolConfig
  | Tool.pen1 => ts.pen1
  | Tool.pen2 => ts.pen2
  | Tool.highlighter => ts.highlighter
  | Tool.eraser => ts.pen1

/-- Default pen-1 color. -/
def pen1Color : String := "#eb454a"

/-- Default pen-2 color. -/
def pen2Color : String := "#3b82f6"

/-- Default highlighter color. -/
def highlighterColor : String := "#ffeb3b"

/-- The component's initial `tools` record. -/
def defaultTools : Tools :=
  { pen1 := getDefaultTool pen1Color 16 1
    pen2 := getDefaultTool pen2Color 16 1
    highlighter := getDefaultTool highlighterColor 30 (2 / 5)
    eraser := { size := 40 } }

/-- The mutable state of `DrawingComponent` that the store operations
touch: committed strokes, redo stack, active tool, the in-progress sample
buffer and preview path, and the tool configurations. -/
structure CompState where
  allStrokes : List DrawingStroke
  redoStack : List DrawingStroke
  activeTool : Tool
  currentPoints : List Sample
  previewPath : String
  tools : Tools
deriving DecidableEq

/-- Embedding of `DrawingComponent.undo`: `allStrokes.pop()` (pop at the
array tail; popping an empty array returns `undefined` and leaves it
empty) and, when a stroke was popped, push it onto `redoStack`. -/
def undo (st : CompState) : CompState :=
  match st.allStrokes.getLast? with
  | some s =>
    { st with allStrokes := st.allStrokes.dropLast, redoStack := st.redoStack ++ [s] }
  | none => { st with allStrokes := st.allStrokes.dropLast }

/-- Embedding of `DrawingComponent.redo`: `redoStack.pop()` and, when a
stroke was popped, push it onto `allStrokes`. -/
def redo (st : CompState) : CompState :=
  match st.redoStack.getLast? with
  | some s =>
    { st with redoStack := st.redoStack.dropLast, allStrokes := st.allStrokes ++ [s] }
  | none => { st with redoStack := st.redoStack.dropLast }

/-- Models the comparison `Math.hypot(dx, dy) < r`: the nonnegative
Euclidean norm is strictly below `r` iff `r` is positive and
`dx² + dy² < r²`.  The squared form keeps the predicate executable over
`ℚ`; `hypotLt_iff` proves it equivalent to the real square-root
comparison. -/
def hypotLt (dx dy r : ℚ) : Bool :=
  decide (0 < r) && decide (dx ^ 2 + dy ^ 2 < r ^ 2)

/-- Embedding of `DrawingService.shouldEraseStroke` (src/unnamed/part_001,
lines 205-209): some retained sample lies strictly within `eraserSize` of
the query point. -/
def shouldEraseStroke (s : DrawingStroke) (x y eraserSize : ℚ) : Bool :=
  s.points.any (fun p => hypotLt (p.x - x) (p.y - y) eraserSize)

/-- The canvas bounding rectangle read by `getCoords` (only the offset
matters). -/
structure Rect where
  left : ℚ
  top : ℚ
deriving DecidableEq

/-- A pointer event: client coordinates, pressure and button state. -/
structure PEvent where
  clientX : ℚ
  clientY : ℚ
  pressure : ℚ
  buttons : Nat
deriving DecidableEq

/-- Embedding of `getCoords`: client coordinates relative to the canvas
rectangle. -/
def getCoords (rect : Rect) (e : PEvent) : ℚ × ℚ :=
  (e.clientX - rect.left, e.clientY - rect.top)

/-- Embedding of `DrawingComponent.erase` (drawing.component.ts, lines
233-238): one atomic filter pass keeping exactly the strokes that
`shouldEraseStroke` rejects; only `allStrokes` is assigned. -/
def eraseComp (rect : Rect) (st : CompState) (e : PEvent) : CompState :=
  let c := getCoords rect e
  { st with
    allStrokes :=
      st.allStrokes.filter (fun s => ! shouldEraseStroke s c.1 c.2 st.tools.eraser.size) }

/-- Embedding of `DrawingComponent.onPointerDown`: the eraser branch
erases and returns; otherwise the buffer is seeded with the single sample
and the redo stack is cleared. -/
def onPointerDown (rect : Rect) (st : CompState) (e : PEvent) : CompState :=
  if st.activeTool = Tool.eraser then eraseComp rect st e
  else
    let c := getCoords rect e
    { st with
      currentPoints := [⟨c.1, c.2, e.pressure⟩]
      redoStack := [] }

/-- Embedding of `DrawingService.generatePreviewPath`: the external
`getStroke` of perfect-freehand (not part of this repository) and the
number-to-string join rendering are parameters. -/
noncomputable def generatePreviewPath (gs : List Sample → LibOptions → List (ℚ × ℚ))
    (render : List Tok → String) (points : List Sample) (tool : ToolConfig) : String :=
  render (getSvgPathFromStroke (gs points (getLibOptions tool)))

/-- Embedding of `DrawingComponent.onPointerMove`: ignored unless the
primary button is down; the eraser branch erases and returns; otherwise
the sample is appended to the buffer and the preview path recomputed. -/
noncomputable def onPointerMove (gs : List Sample → LibOptions → List (ℚ × ℚ))
    (render : List Tok → String) (rect : Rect) (st : CompState) (e : PEvent) : CompState :=
  if e.buttons ≠ 1 then st
  else if st.activeTool = Tool.eraser then eraseComp rect st e
  else
    let c := getCoords rect e
    let pts := st.currentPoints ++ [⟨c.1, c.2, e.pressure⟩]
    { st with
      currentPoints := pts
      previewPath := generatePreviewPath gs render pts (penConfig st.tools st.activeTool) }

/-- Embedding of `DrawingComponent.onPointerUp`: when the buffer is
non-empty and the active tool is not the eraser, a stroke built from the
buffer, the current preview path and the active tool's cosmetic fields is
appended to `allStrokes`; the buffer and preview are always cleared. -/
def onPointerUp (st : CompState) : CompState :=
  if 0 < st.currentPoints.length ∧ ¬ st.activeTool = Tool.eraser then
    let t := penConfig st.tools st.activeTool
    { st with
      allStrokes := st.allStrokes ++
        [{ points := st.currentPoints
           path := st.previewPath
           color := t.color
           opacity := some t.opacity
           outlineColor := t.outline.color
           outlineWidth := some t.outline.width }]
      currentPoints := []
      previewPath := "" }
  else { st with currentPoints := [], previewPath := "" }

/-- One `<path>` element of a parsed SVG document: the attributes read by
the importer, each `none` when absent (`getAttribute` returning
`null`). -/
structure PathElem where
  d : Option String
  fill : Option String
  fillOpacity : Option String
  stroke : Option String
  strokeWidth : Option String
deriving DecidableEq

/-- Result of `DOMParser` + `querySelector('svg')`: `none` when the
document has no `svg` root (parse failure), otherwise the list of `path`
elements in document order. -/
abbrev SVGDoc := Option (List PathElem)

/-- JS `a || dflt` on a nullable attribute string: `null` and the empty
string are falsy. -/
def jsOr (a : Option String) (dflt : String) : String :=
  match a with
  | some s => if s = "" then dflt else s
  | none => dflt

/-- Default color literal `'#000000'`. -/
def blackColor : String := "#000000"

/-- Attribute literal `'none'`. -/
def noneStr : String := "none"

/-- Attribute default literal `'1'`. -/
def oneStr : String := "1"

/-- Attribute default literal `'0'`. -/
def zeroStr : String := "0"

/-- The per-path body of `DrawingService.parseSVGContent` (src/unnamed/
part_001, lines 178-197): a stroke is produced only when the `d`
attribute is truthy (non-null and non-empty); `fill`/`fill-opacity`/
`stroke`/`stroke-width` are defaulted and parsed, with the literal value
`none` mapped to black. -/
def strokeFromPath (p : PathElem) : Option DrawingStroke :=
  match p.d with
  | none => none
  | some dstr =>
    if dstr = "" then none
    else
      let fill := jsOr p.fill blackColor
      let so := jsOr p.stroke noneStr
      some
        { points := extractPointsFromPath dstr
          path := dstr
          color := if fill = noneStr then blackColor else fill
          opacity := parseFloatQ (jsOr p.fillOpacity oneStr).data
          outlineColor := if so = noneStr then blackColor else so
          outlineWidth := parseFloatQ (jsOr p.strokeWidth zeroStr).data }

/-- Embedding of `DrawingService.parseSVGContent` (src/unnamed/part_001,
lines 165-200): an unparsable document (no `svg` root) yields `[]` after
logging; otherwise one stroke per `path` element with a truthy `d`. -/
def parseSVGContent (doc : SVGDoc) : List DrawingStroke :=
  match doc with
  | none => []
  | some paths => paths.filterMap strokeFromPath

/-- Embedding of `DrawingComponent.loadSVGContent` (drawing.component.ts,
lines 84-88): `this.allStrokes = strokes; this.redoStack = []` — the
parsed strokes replace the committed stack. -/
def loadSVGContent (st : CompState) (doc : SVGDoc) : CompState :=
  { st with allStrokes := parseSVGContent doc, redoStack := [] }

/-- `hasTruthyD p` iff the import produces a stroke from `p`. -/
def hasTruthyD (p : PathElem) : Bool :=
  match p.d with
  | some s => ! (s == "")
  | none => false

/-- The component's initial state. -/
def freshState : CompState :=
  { allStrokes := []
    redoStack := []
    activeTool := Tool.pen1
    currentPoints := []
    previewPath := ""
    tools := defaultTools }

/-- A concrete committed stroke used in concrete scenarios. -/
def strokeA : DrawingStroke :=
  { points := [], path := "", color := pen1Color, opacity := none,
    outlineColor := blackColor, outlineWidth := none }

/-- A second concrete stroke, distinguishable from `strokeA` by color. -/
def strokeB : DrawingStroke :=
  { points := [], path := "", color := pen2Color, opacity := none,
    outlineColor := blackColor, outlineWidth := none }

/-- A third concrete stroke. -/
def strokeC : DrawingStroke :=
  { points := [], path := "", color := highlighterColor, opacity := none,
    outlineColor := blackColor, outlineWidth := none }

/-- A state with one committed stroke, used to exhibit that import
replaces the committed stack. -/
def stateWithA : CompState :=
  { freshState with allStrokes := [strokeA] }

/-- C2 counterexample: importing a document that fails to parse as SVG
does not leave the committed stack unchanged — `loadSVGContent` assigns
the parse result (here `[]`) over it, discarding the committed stroke. -/
theorem import_wipes_committed :
    (loadSVGContent stateWithA none).allStrokes = [] ∧
    stateWithA.allStrokes = [strokeA] ∧
    (loadSVGContent stateWithA none).allStrokes ≠ stateWithA.allStrokes := by
  refine ⟨rfl, rfl, ?_⟩
  decide

theorem strokeFromPath_isSome (p : PathElem) :
    (strokeFromPath p).isSome = hasTruthyD p := by
  obtain ⟨d, f, fo, so, sw⟩ := p
  cases d with
  | none => rfl
  | some s =>
    by_cases hs : s = ""
    · subst hs
      rfl
    · simp [strokeFromPath, hasTruthyD, hs]

theorem length_filterMap_strokeFromPath (l : List PathElem) :
    (l.filterMap strokeFromPath).length = l.countP hasTruthyD := by
  induction l with
  | nil => rfl
  | cons p ps ih =>
    rw [List.filterMap_cons, List.countP_cons]
    cases hsp : strokeFromPath p with
    | none =>
      have hT := strokeFromPath_isSome p
      rw [hsp] at hT
      simp [← hT, ih]
    | some s =>
      have hT := strokeFromPath_isSome p
      rw [hsp] at hT
      simp [← hT, ih]

/-- C2 (amended): import replaces rather than appends: `loadSVGContent`
sets the committed stack to exactly the strokes parsed from the document —
empty for a document with no `svg` root and one stroke per `path` element
with a truthy `d` attribute otherwise — and clears the redo stack; the
previously committed strokes are discarded. -/
theorem loadSVGContent_replaces :
    (∀ (st : CompState) (doc : SVGDoc),
        (loadSVGContent st doc).allStrokes = parseSVGContent doc ∧
        (loadSVGContent st doc).redoStack = []) ∧
    parseSVGContent (none : SVGDoc) = [] ∧
    (∀ paths : List PathElem,
        (parseSVGContent (some paths)).length = paths.countP hasTruthyD) :=
  ⟨fun _ _ => ⟨rfl, rfl⟩, rfl, fun paths => length_filterMap_strokeFromPath paths⟩

/-- A state with committed=[A,B] and a non-empty redo stack [C]. -/
def stateABredoC : CompState :=
  { freshState with allStrokes := [strokeA, strokeB], redoStack := [strokeC] }

/-- C3 counterexample: from a state with committed=[A,B] whose redo stack
is the non-empty [C], `undo()` yields redo=[C,B], not [B] — the claimed
outcome `redo=[B]` only holds when the redo stack starts empty. -/
theorem undo_with_nonempty_redo :
    (undo stateABredoC).allStrokes = [strokeA] ∧
    (undo stateABredoC).redoStack = [strokeC, strokeB] ∧
    (undo stateABredoC).redoStack ≠ [strokeB] := by
  refine ⟨rfl, rfl, ?_⟩
  decide

/-- C3 (amended): `undo` pops the most recent committed stroke onto the
redo stack and is a no-op on an empty committed stack; `redo` pops the
most recent redo entry back and is a no-op on an empty redo stack; from
any state with committed=[A,B] and an empty redo stack, `undo` yields
committed=[A], redo=[B] and a following `redo` restores committed=[A,B],
redo=[]; `redo` after `undo` is the identity on every state with a
non-empty committed stack. -/
theorem undo_redo_spec :
    (∀ st : CompState, st.allStrokes = [] → undo st = st) ∧
    (∀ st : CompState, st.redoStack = [] → redo st = st) ∧
    (∀ (st : CompState) (A B : DrawingStroke),
        st.allStrokes = [A, B] → st.redoStack = [] →
        (undo st).allStrokes = [A] ∧ (undo st).redoStack = [B] ∧
        (redo (undo st)).allStrokes = [A, B] ∧ (redo (undo st)).redoStack = []) ∧
    (∀ st : CompState, st.allStrokes ≠ [] → redo (undo st) = st) := by
  refine ⟨?_, ?_, ?_, ?_⟩
  · intro st h
    obtain ⟨aS, rS, aT, cP, pP, ts⟩ := st
    simp only at h
    subst h
    rfl
  · intro st h
    obtain ⟨aS, rS, aT, cP, pP, ts⟩ := st
    simp only at h
    subst h
    rfl
  · intro st A B hA hR
    obtain ⟨aS, rS, aT, cP, pP, ts⟩ := st
    simp only at hA hR
    subst hA
    subst hR
    exact ⟨rfl, rfl, rfl, rfl⟩
  · intro st h
    obtain ⟨aS, rS, aT, cP, pP, ts⟩ := st
    simp only at h
    rcases List.eq_nil_or_concat aS with rfl | ⟨L, b, rfl⟩
    · exact absurd rfl h
    · simp [undo, redo, List.concat_eq_append, List.getLast?_concat,
        List.dropLast_concat]

/-- A state with committed=[A,B] and empty redo stack. -/
def stateAB : CompState :=
  { freshState with allStrokes := [strokeA, strokeB] }

/-- C3 witness: the amended undo/redo theorem applied at the concrete
state committed=[A,B], redo=[]. -/
theorem undo_redo_spec_witness :
    stateAB.allStrokes = [strokeA, strokeB] ∧
    (undo stateAB).redoStack = [strokeB] ∧
    redo (undo stateAB) = stateAB :=
  ⟨rfl, (undo_redo_spec.2.2.1 stateAB strokeA strokeB rfl rfl).2.1,
   undo_redo_spec.2.2.2 stateAB (by decide)⟩

theorem hypotLt_iff (dx dy r : ℚ) :
    hypotLt dx dy r = true ↔
      Real.sqrt ((dx : ℝ) ^ 2 + (dy : ℝ) ^ 2) < (r : ℝ) := by
  unfold hypotLt
  rw [Bool.and_eq_true, decide_eq_true_iff, decide_eq_true_iff]
  constructor
  · rintro ⟨hr, hlt⟩
    have hr' : (0 : ℝ) < (r : ℝ) := by exact_mod_cast hr
    rw [Real.sqrt_lt' hr']
    exact_mod_cast hlt
  · intro h
    have h0 : (0 : ℝ) ≤ Real.sqrt ((dx : ℝ) ^ 2 + (dy : ℝ) ^ 2) := Real.sqrt_nonneg _
    have hr' : (0 : ℝ) < (r : ℝ) := lt_of_le_of_lt h0 h
    refine ⟨by exact_mod_cast hr', ?_⟩
    rw [Real.sqrt_lt' hr'] at h
    exact_mod_cast h

/-- C5: the erase pass retains a stroke iff it was committed and all of
its samples are at Euclidean distance at least the eraser radius from the
query point; equivalently it removes, in the single filter pass, exactly
the strokes with at least one sample strictly within the radius. -/
theorem erase_exact :
    ∀ (rect : Rect) (st : CompState) (e : PEvent) (s : DrawingStroke),
      s ∈ (eraseComp rect st e).allStrokes ↔
        s ∈ st.allStrokes ∧
        ∀ p ∈ s.points,
          ((st.tools.eraser.size : ℚ) : ℝ) ≤
            Real.sqrt (((p.x : ℝ) - ((getCoords rect e).1 : ℝ)) ^ 2 +
              ((p.y : ℝ) - ((getCoords rect e).2 : ℝ)) ^ 2) := by
  intro rect st e s
  have hpt : ∀ p : Sample,
      (¬ hypotLt (p.x - (getCoords rect e).1) (p.y - (getCoords rect e).2)
          st.tools.eraser.size = true) ↔
        ((st.tools.eraser.size : ℚ) : ℝ) ≤
          Real.sqrt (((p.x : ℝ) - ((getCoords rect e).1 : ℝ)) ^ 2 +
            ((p.y : ℝ) - ((getCoords rect e).2 : ℝ)) ^ 2) := by
    intro p
    rw [hypotLt_iff, not_lt]
    push_cast
    exact Iff.rfl
  unfold eraseComp
  simp only [List.mem_filter, Bool.not_eq_true']
  constructor
  · rintro ⟨hmem, hall⟩
    refine ⟨hmem, ?_⟩
    intro p hp
    have := List.any_eq_false.mp (by simpa [shouldEraseStroke] using hall) p hp
    exact (hpt p).mp this
  · rintro ⟨hmem, hall⟩
    refine ⟨hmem, ?_⟩
    have : s.points.any
        (fun p => hypotLt (p.x - (getCoords rect e).1) (p.y - (getCoords rect e).2)
          st.tools.eraser.size) = false :=
      List.any_eq_false.mpr (fun p hp => (hpt p).mpr (hall p hp))
    simpa [shouldEraseStroke] using this

/-- C5 witness: the erase characterization instantiated at a concrete
state, event and stroke. -/
theorem erase_exact_witness :
    strokeA ∈ (eraseComp { left := 0, top := 0 } stateWithA
        { clientX := 10, clientY := 10, pressure := 1 / 2, buttons := 1 }).allStrokes ↔
      strokeA ∈ stateWithA.allStrokes ∧
      ∀ p ∈ strokeA.points,
        ((stateWithA.tools.eraser.size : ℚ) : ℝ) ≤
          Real.sqrt (((p.x : ℝ) -
              ((getCoords { left := 0, top := 0 }
                { clientX := 10, clientY := 10, pressure := 1 / 2, buttons := 1 }).1 : ℝ)) ^ 2 +
            ((p.y : ℝ) -
              ((getCoords { left := 0, top := 0 }
                { clientX := 10, clientY := 10, pressure := 1 / 2, buttons := 1 }).2 : ℝ)) ^ 2) :=
  erase_exact { left := 0, top := 0 } stateWithA
    { clientX := 10, clientY := 10, pressure := 1 / 2, buttons := 1 } strokeA

/-- The tap gesture's pointer event: client (10, 10), pressure 0.5,
primary button down. -/
def tapEvent : PEvent :=
  { clientX := 10, clientY := 10, pressure := 1 / 2, buttons := 1 }

/-- A canvas rectangle at the origin. -/
def rect0 : Rect :=
  { left := 0, top := 0 }

/-- C8: evaluating the component at the failing input — pointer-down
followed immediately by pointer-up with no pointer-move, pen active on a
fresh state — commits a stroke whose path string is empty (the preview is
only computed on pointer-move) and whose point list is the single raw
sample: no non-degenerate closed outline is produced. -/
theorem tap_commits_empty_path :
    ((onPointerUp (onPointerDown rect0 freshState tapEvent)).allStrokes.map
        (fun s => s.path)) = [""] ∧
    ((onPointerUp (onPointerDown rect0 freshState tapEvent)).allStrokes.map
        (fun s => s.points.length)) = [1] :=
  ⟨rfl, rfl⟩

/-- C10: with the eraser active, pointer-down and pointer-move only filter
the committed stroke list — every other state component, in particular the
redo stack, is unchanged — while pointer-down with a pen tool clears the
redo stack. -/
theorem eraser_preserves_redo :
    ∀ (gs : List Sample → LibOptions → List (ℚ × ℚ)) (render : List Tok → String)
      (rect : Rect) (st : CompState) (e : PEvent),
      (st.activeTool = Tool.eraser →
        onPointerDown rect st e =
          { st with allStrokes := (onPointerDown rect st e).allStrokes } ∧
        onPointerMove gs render rect st e =
          { st with allStrokes := (onPointerMove gs render rect st e).allStrokes } ∧
        (onPointerDown rect st e).redoStack = st.redoStack ∧
        (onPointerMove gs render rect st e).redoStack = st.redoStack) ∧
      (st.activeTool ≠ Tool.eraser → (onPointerDown rect st e).redoStack = []) := by
  intro gs render rect st e
  constructor
  · intro h
    have hdown : onPointerDown rect st e = eraseComp rect st e := by
      unfold onPointerDown
      rw [if_pos h]
    have hmove : onPointerMove gs render rect st e =
        if e.buttons ≠ 1 then st else eraseComp rect st e := by
      unfold onPointerMove
      by_cases hb : e.buttons ≠ 1
      · rw [if_pos hb, if_pos hb]
      · rw [if_neg hb, if_neg hb, if_pos h]
    refine ⟨?_, ?_, ?_, ?_⟩
    · rw [hdown]; rfl
    · rw [hmove]
      by_cases hb : e.buttons ≠ 1
      · rw [if_pos hb]
      · rw [if_neg hb]
        rfl
    · rw [hdown]; rfl
    · rw [hmove]
      by_cases hb : e.buttons ≠ 1
      · rw [if_pos hb]
      · rw [if_neg hb]
        rfl
  · intro h
    unfold onPointerDown
    rw [if_neg h]

/-- A state with the eraser active, one committed stroke and a non-empty
redo stack. -/
def eraserState : CompState :=
  { freshState with
    activeTool := Tool.eraser
    allStrokes := [strokeA]
    redoStack := [strokeC] }

/-- A trivial stand-in for the external `getStroke`. -/
def constGetStroke : List Sample → LibOptions → List (ℚ × ℚ) := fun _ _ => []

/-- A trivial stand-in for the token-join rendering. -/
def constRender : List Tok → String := fun _ => ""

/-- C10 witness: the frame theorem applied with the eraser active on a
concrete state with a non-empty redo stack. -/
theorem eraser_preserves_redo_witness :
    eraserState.activeTool = Tool.eraser ∧
    (onPointerDown rect0 eraserState tapEvent).redoStack = eraserState.redoStack ∧
    (onPointerMove constGetStroke constRender rect0 eraserState tapEvent).redoStack =
      eraserState.redoStack :=
  ⟨rfl,
   ((eraser_preserves_redo constGetStroke constRender rect0 eraserState tapEvent).1 rfl).2.2.1,
   ((eraser_preserves_redo constGetStroke constRender rect0 eraserState tapEvent).1 rfl).2.2.2⟩

end Freehand
